import Mathlib

/-
Verification of the pycytominer single-cell walkthrough pipeline
(merge -> annotate -> normalize -> feature_select).

The repository's own file, `walkthroughs/nbconverted/single_cell_usage.py`,
configures the pipeline (compartments, `linking_cols`, strata, join keys,
normalization method, selection operations) and calls the library stages
`SingleCells.merge_single_cells`, `annotate`, `normalize` and
`feature_select`.  The bodies of those stages are not part of the
repository sources, so every stage below is modelled from the spec's
contracts (sections 3, 4 and 7 of the design document); the
`linking_cols` configuration itself is transcribed from the source file.

Tables are shallowly embedded as a schema (list of column names) plus a
list of rows, where each row is an association list from column name to
value.  Numeric cells are rationals; the spec's population standard
deviation (an irrational square root in general) enters the Normalizer as
an explicit scale statistic that the theorems characterize as the unique
nonnegative square root of the population variance.
-/

namespace Pycytominer

abbrev ColName := String

/-- A table cell: a numeric measurement, a string identifier, or SQL NULL. -/
inductive Value where
  | num (q : ℚ)
  | str (s : String)
  | null
deriving DecidableEq

/-- One table row: an association list from column name to cell value. -/
abbrev Rowt := List (ColName × Value)

/-- A named relation: schema (ordered column names) and rows. -/
structure Table where
  cols : List ColName
  rows : List Rowt
deriving DecidableEq

/-- Look a column up in a row; absent columns read as NULL. -/
def cellOf (r : Rowt) (c : ColName) : Value :=
  match r.find? (fun e => e.1 == c) with
  | some e => e.2
  | none => .null

/-- Error taxonomy of the pipeline (spec section 7). -/
inductive PipeErr where
  | configuration
  | cardinality
  | integrity
  | ambiguousJoin
  | schema
deriving DecidableEq

/-- Why the Normalizer dropped a column (spec section 4.4): zero population
scale (recorded as the recoverable DegenerateColumnError) or an entirely
null population (dropped with a warning). -/
inductive DropReason where
  | degenerateColumn
  | allNullColumn
deriving DecidableEq

/-! ### Link-graph configuration (transcribed from the source walkthrough)

`linking_cols` below is the dictionary built at
`src/walkthroughs/nbconverted/single_cell_usage.py:98-105`: for each
compartment it maps each linked compartment to the column used for that
link. -/

/-- The `linking_cols` mapping exactly as written in the walkthrough source. -/
def linking_cols : List (String × List (String × String)) :=
  [("Per_Cytoplasm",
     [("Per_Cells", "Cytoplasm_Parent_Cells"),
      ("Per_Nuclei", "Cytoplasm_Parent_Nuclei")]),
   ("Per_Cells", [("Per_Cytoplasm", "Cells_Number_Object_Number")]),
   ("Per_Nuclei", [("Per_Cytoplasm", "Nuclei_Number_Object_Number")])]

/-- Dictionary lookup into `linking_cols`: the linking column declared by
compartment `a` for compartment `b`, if any. -/
def linkOf (a b : String) : Option String :=
  match linking_cols.find? (fun e => e.1 == a) with
  | some e => (e.2.find? (fun q => q.1 == b)).map (fun q => q.2)
  | none => none

/-! ### TableLinker (modelled from the spec)

Modelled from the spec: the body of the link-graph validation
(`TableLinker`, spec section 4.1) is not under the repository sources; it
is reconstructed from the contract: validate that the link graph is a
tree rooted at the image table, with every compartment reachable from the
root, no cycle, and every declared foreign-key column present in its
source table, failing with `ConfigurationError` otherwise. -/

/-- A link-graph configuration: compartment names, the image root, the
directed child-to-parent links (child, parent, child's foreign-key
column), and each table's column schema. -/
structure LinkGraph where
  comps : List String
  root : String
  edges : List (String × String × ColName)
  tableCols : List (String × List ColName)
deriving DecidableEq

/-- Schema of a named table in a link-graph configuration. -/
def schemaOf (g : LinkGraph) (c : String) : List ColName :=
  match g.tableCols.find? (fun e => e.1 == c) with
  | some e => e.2
  | none => []

/-- One expansion step of the set of compartments reachable from the root:
add any compartment with a declared link to an already-reached one. -/
def reachStep (g : LinkGraph) (acc : List String) : List String :=
  acc ++ g.comps.filter
    (fun c => decide (c ∉ acc) &&
      g.edges.any (fun e => e.1 == c && decide (e.2.1 ∈ acc)))

/-- Compartments reachable from the image root, by bounded iteration. -/
def reachableComps (g : LinkGraph) : List String :=
  (reachStep g)^[g.comps.length] [g.root]

/-- Every compartment is reachable from the image root. -/
def allReachable (g : LinkGraph) : Bool :=
  g.comps.all (fun c => decide (c ∈ reachableComps g))

/-- Direct parents of a compartment under the declared links. -/
def parentsOf (g : LinkGraph) (c : String) : List String :=
  g.edges.filterMap (fun e => if e.1 == c then some e.2.1 else none)

/-- One expansion step of the ancestor set: add parents of members. -/
def stepUp (g : LinkGraph) (acc : List String) : List String :=
  acc ++ g.comps.filter
    (fun p => decide (p ∉ acc) &&
      g.edges.any (fun e => decide (e.1 ∈ acc) && e.2.1 == p))

/-- All (transitive) ancestors of a compartment, by bounded iteration. -/
def ancestorsOf (g : LinkGraph) (c : String) : List String :=
  (stepUp g)^[g.comps.length] (parentsOf g c)

/-- Some compartment is its own ancestor: the link graph has a cycle. -/
def hasCycle (g : LinkGraph) : Bool :=
  g.comps.any (fun c => decide (c ∈ ancestorsOf g c))

/-- Every declared foreign-key column is present in its source table. -/
def fkColumnsPresent (g : LinkGraph) : Bool :=
  g.edges.all (fun e => decide (e.2.2 ∈ schemaOf g e.1))

/-- Modelled from the spec: `TableLinker` validation (spec section 4.1),
pure planning with no data access. -/
def validateLinkSpec (g : LinkGraph) : Except PipeErr Unit :=
  if allReachable g && !hasCycle g && fkColumnsPresent g then .ok ()
  else .error .configuration

/-! ### MergeEngine (modelled from the spec)

Modelled from the spec: the body of `SingleCells.merge_single_cells`
(spec section 4.2) is not under the repository sources; it is
reconstructed from the contract: starting from the leaf compartment,
successively equality-join with each ancestor on the declared key pairs
(NULL keys never match), each step required to be many-to-one
(`CardinalityError` otherwise), and finally check the written row count
against the leaf table's row count (`IntegrityError` on mismatch). -/

/-- Equality join condition on the declared key pairs; NULL keys never
match (spec section 4.2). -/
def rowKeyMatch (keys : List (ColName × ColName)) (r s : Rowt) : Bool :=
  keys.all (fun k => decide (cellOf r k.1 ≠ .null ∧ cellOf r k.1 = cellOf s k.2))

/-- One ancestor table together with the join-key pairs for its step. -/
structure MergeStep where
  table : Table
  keys : List (ColName × ColName)
deriving DecidableEq

/-- One merge step: joins the accumulated rows with an ancestor table.
Fails with `CardinalityError` when some row matches two or more ancestor
rows (the step would be many-to-many); otherwise each row is inner-joined
with its unique matching ancestor row. -/
def joinStep (rows : List Rowt) (st : MergeStep) : Except PipeErr (List Rowt) :=
  if rows.any (fun r => 2 ≤ (st.table.rows.filter (rowKeyMatch st.keys r)).length) then
    .error .cardinality
  else
    .ok (rows.filterMap (fun r =>
      (st.table.rows.find? (rowKeyMatch st.keys r)).map (fun s => r ++ s)))

/-- Fold the merge steps over the accumulated rows. -/
def mergeRows : List Rowt → List MergeStep → Except PipeErr (List Rowt)
  | rows, [] => .ok rows
  | rows, st :: rest =>
    match joinStep rows st with
    | .error e => .error e
    | .ok rows2 => mergeRows rows2 rest

/-- Modelled from the spec: `SingleCells.merge_single_cells` (spec section
4.2).  Joins the leaf compartment with its ancestors and verifies the
written row count against the leaf table's row count, raising
`IntegrityError` on mismatch. -/
def merge_single_cells (leaf : Table) (steps : List MergeStep) : Except PipeErr Table :=
  match mergeRows leaf.rows steps with
  | .error e => .error e
  | .ok rs =>
    if rs.length = leaf.rows.length then
      .ok { cols := steps.foldl (fun acc st => acc ++ st.table.cols) leaf.cols,
            rows := rs }
    else .error .integrity

/-- Modelled from the spec: the full merge stage validates the link
specification eagerly, before any data row is read (spec sections 4.1 and
7), and only then runs the streaming merge. -/
def merge_pipeline (g : LinkGraph) (leaf : Table) (steps : List MergeStep) :
    Except PipeErr Table :=
  match validateLinkSpec g with
  | .error e => .error e
  | .ok _ => merge_single_cells leaf steps

/-! ### AnnotationJoiner (modelled from the spec)

Modelled from the spec: the body of `annotate` (spec section 4.3) is not
under the repository sources; it is reconstructed from the contract: a
left outer join of the profile with the metadata table keyed on the
conjunction of the declared (profile-column, metadata-column) pairs,
`AmbiguousJoinError` when a profile row matches two or more metadata
rows, NULL metadata columns for unmatched profile rows, and metadata
column names colliding with profile column names namespaced with a
metadata marker. -/

/-- A profile row matches a metadata row when every declared
(profile-column, metadata-column) pair is equal. -/
def joinMatch (keys : List (ColName × ColName)) (r m : Rowt) : Bool :=
  keys.all (fun k => cellOf r k.1 == cellOf m k.2)

/-- The metadata rows matching one profile row. -/
def matchingRows (meta : Table) (keys : List (ColName × ColName)) (r : Rowt) :
    List Rowt :=
  meta.rows.filter (joinMatch keys r)

/-- Namespacing of metadata column names that collide with profile column
names. -/
def metaRename (profCols : List ColName) (c : ColName) : ColName :=
  if c ∈ profCols then "Metadata_" ++ c else c

/-- The all-NULL metadata fragment appended to unmatched profile rows. -/
def nullMetaEntries (prof meta : Table) : Rowt :=
  meta.cols.map (fun c => (metaRename prof.cols c, Value.null))

/-- The metadata fragment taken from a matching metadata row. -/
def metaEntries (prof meta : Table) (m : Rowt) : Rowt :=
  meta.cols.map (fun c => (metaRename prof.cols c, cellOf m c))

/-- Modelled from the spec: `annotate` (spec section 4.3). -/
def annotate (prof meta : Table) (keys : List (ColName × ColName)) :
    Except PipeErr Table :=
  if prof.rows.any (fun r => 2 ≤ (matchingRows meta keys r).length) then
    .error .ambiguousJoin
  else
    .ok { cols := prof.cols ++ meta.cols.map (metaRename prof.cols),
          rows := prof.rows.map (fun r =>
            match matchingRows meta keys r with
            | [] => r ++ nullMetaEntries prof meta
            | m :: _ => r ++ metaEntries prof meta m) }

/-! ### Normalizer (modelled from the spec)

Modelled from the spec: the body of `normalize` (spec section 4.4) is not
under the repository sources; it is reconstructed from the contract for
the walkthrough's configuration (`method="standardize"`, population
`samples="all"`): per feature column, subtract the population mean and
divide by the population standard deviation, computed once over the whole
population and then applied to every row.  The standard deviation is
irrational in general, so the engine takes the scale statistic as an
explicit argument; the theorems pin it down as the unique nonnegative
square root of the population variance.  A column whose population
standard deviation is zero (equivalently, whose population variance is
zero) is dropped and recorded with the recoverable DegenerateColumnError;
a column with an entirely null population is dropped with a warning.
Metadata columns are never touched. -/

/-- Population mean of a list of rationals. -/
def popMean (l : List ℚ) : ℚ := l.sum / l.length

/-- Population variance of a list of rationals. -/
def popVar (l : List ℚ) : ℚ :=
  (l.map (fun x => (x - popMean l) ^ 2)).sum / l.length

/-- The numeric population of one column of a table (null and non-numeric
cells are not part of the population). -/
def colNums (t : Table) (c : ColName) : List ℚ :=
  t.rows.filterMap (fun r =>
    match cellOf r c with
    | .num q => some q
    | _ => none)

/-- The feature columns the Normalizer drops, with the recorded reason:
entirely null population, or zero population scale (zero standard
deviation, equivalently zero variance). -/
def droppedCols (t : Table) (F : List ColName) : List (ColName × DropReason) :=
  F.filterMap (fun c =>
    if colNums t c = [] then some (c, DropReason.allNullColumn)
    else if popVar (colNums t c) = 0 then some (c, DropReason.degenerateColumn)
    else none)

/-- Names of the dropped feature columns. -/
def droppedNames (t : Table) (F : List ColName) : List ColName :=
  (droppedCols t F).map Prod.fst

/-- The standardize transform of one cell of feature column `c`: subtract
the population mean, divide by the population scale `σ`. -/
def stdTransform (σ : List ℚ → ℚ) (t : Table) (c : ColName) : Value → Value
  | .num x => .num ((x - popMean (colNums t c)) / σ (colNums t c))
  | v => v

/-- Modelled from the spec: `normalize` with `method="standardize"` and
population `samples="all"` (spec section 4.4).  Returns the normalized
table together with the record of dropped columns; degenerate columns are
recovered locally (dropped and recorded), the run continues. -/
def normalize (σ : List ℚ → ℚ) (t : Table) (F : List ColName) :
    Table × List (ColName × DropReason) :=
  ({ cols := t.cols.filter (fun c => decide (c ∉ droppedNames t F)),
     rows := t.rows.map (fun r =>
       (r.filter (fun e => decide (e.1 ∉ droppedNames t F))).map (fun e =>
         if e.1 ∈ F then (e.1, stdTransform σ t e.1 e.2) else e)) },
   droppedCols t F)

/-! ### FeatureSelector (modelled from the spec)

Modelled from the spec: the body of `feature_select` (spec section 4.5)
is not under the repository sources; it is reconstructed from the
contract for the walkthrough's configuration, the ordered operation list
`["variance_threshold", "correlation_threshold", "blocklist"]`: drop
features whose population variance is at or below the threshold; then
repeatedly find a remaining pair whose absolute correlation exceeds the
threshold and remove the pair's higher-index member until no pair
exceeds; then drop features named on the blocklist.  Metadata columns are
never eligible for removal. -/

/-- Population covariance of two equally long lists of rationals. -/
def popCov (xs ys : List ℚ) : ℚ :=
  ((xs.zip ys).map (fun p => (p.1 - popMean xs) * (p.2 - popMean ys))).sum /
    xs.length

/-- Whether the absolute correlation of two columns exceeds the threshold
`θ`, written square-free to stay inside the rationals: for `0 ≤ θ` and
nonzero variances, `θ^2 * var x * var y < cov x y ^ 2` holds exactly when
`θ < |corr x y|`; a zero-variance column has an undefined correlation and
never exceeds. -/
def exceedsCorr (θ : ℚ) (xs ys : List ℚ) : Bool :=
  decide (θ ^ 2 * (popVar xs * popVar ys) < popCov xs ys ^ 2)

/-- The first feature (in working-set order) that forms, with some
earlier feature, a pair whose absolute correlation exceeds the threshold:
the pair's higher-index member, the one the step removes. -/
def firstBad (t : Table) (θ : ℚ) : List ColName → Option ColName
  | [] => none
  | c :: rest =>
    match rest.find? (fun d => exceedsCorr θ (colNums t c) (colNums t d)) with
    | some d => some d
    | none => firstBad t θ rest

/-- The correlation-threshold loop: remove the higher-index member of an
exceeding pair and repeat, with fuel bounding the number of removals. -/
def corrLoop (t : Table) (θ : ℚ) : Nat → List ColName → List ColName
  | 0, cs => cs
  | n + 1, cs =>
    match firstBad t θ cs with
    | none => cs
    | some d => corrLoop t θ n (cs.erase d)

/-- The correlation-threshold selection operation: repeat until no pair
of remaining features exceeds the threshold (a list of features of length
`n` can see at most `n` removals, so that much fuel always suffices). -/
def correlation_threshold (t : Table) (θ : ℚ) (F : List ColName) : List ColName :=
  corrLoop t θ F.length F

/-- The features surviving the walkthrough's ordered operation list:
variance threshold `τ`, then correlation threshold `θ`, then blocklist
`bl` (exact name match), each operation seeing the working set reduced by
the earlier ones. -/
def survivingFeatures (t : Table) (F : List ColName) (τ θ : ℚ) (bl : List ColName) :
    List ColName :=
  (correlation_threshold t θ
      (F.filter (fun c => decide (τ < popVar (colNums t c))))).filter
    (fun c => decide (c ∉ bl))

/-- Modelled from the spec: `feature_select` (spec section 4.5) with the
walkthrough's operation list `["variance_threshold",
"correlation_threshold", "blocklist"]`.  The output keeps every metadata
column and the surviving feature columns, rows and order unchanged. -/
def feature_select (t : Table) (F : List ColName) (τ θ : ℚ) (bl : List ColName) :
    Table :=
  { cols := t.cols.filter (fun c => decide (c ∉ F ∨ c ∈ survivingFeatures t F τ θ bl)),
    rows := t.rows.map (fun r =>
      r.filter (fun e => decide (e.1 ∉ F ∨ e.1 ∈ survivingFeatures t F τ θ bl))) }

/-! ## Helper lemmas -/

theorem find?_filter_eq {α : Type} (l : List α) (p q : α → Bool)
    (h : ∀ e, q e = true → p e = true) :
    (l.filter p).find? q = l.find? q := by
  induction l with
  | nil => rfl
  | cons a l ih =>
    cases hq : q a with
    | true =>
      have hp := h a hq
      simp [List.filter_cons, hp, List.find?_cons, hq]
    | false =>
      cases hp : p a with
      | true => simp [List.filter_cons, hp, List.find?_cons, hq, ih]
      | false => simp [List.filter_cons, hp, List.find?_cons, hq, ih]

theorem find?_map_pred {α : Type} (l : List α) (f : α → α) (q : α → Bool)
    (h : ∀ e, q (f e) = q e) :
    (l.map f).find? q = (l.find? q).map f := by
  induction l with
  | nil => rfl
  | cons a l ih =>
    cases hq : q a with
    | true => simp [List.map_cons, List.find?_cons, h a, hq]
    | false => simp [List.map_cons, List.find?_cons, h a, hq, ih]

theorem cellOf_filter (r : Rowt) (p : ColName × Value → Bool) (c : ColName)
    (h : ∀ e : ColName × Value, e.1 = c → p e = true) :
    cellOf (r.filter p) c = cellOf r c := by
  unfold cellOf
  rw [find?_filter_eq]
  intro e he
  exact h e (by simpa using he)

theorem cellOf_map (r : Rowt) (f : ColName × Value → ColName × Value) (c : ColName)
    (hk : ∀ e, (f e).1 = e.1) (hfix : ∀ e : ColName × Value, e.1 = c → f e = e) :
    cellOf (r.map f) c = cellOf r c := by
  unfold cellOf
  rw [find?_map_pred r f _ (fun e => by simp [hk e])]
  cases hfind : r.find? (fun e => e.1 == c) with
  | none => rfl
  | some e =>
    have he : e.1 = c := by simpa using List.find?_some hfind
    simp [hfix e he]

/-! ## Correlation-threshold lemmas (claims C6 and C7) -/

theorem firstBad_mem {t : Table} {θ : ℚ} : ∀ {cs : List ColName} {d : ColName},
    firstBad t θ cs = some d → d ∈ cs := by
  intro cs
  induction cs with
  | nil => intro d h; simp [firstBad] at h
  | cons c rest ih =>
    intro d h
    rw [firstBad] at h
    cases hf : rest.find? (fun d => exceedsCorr θ (colNums t c) (colNums t d)) with
    | some d' =>
      rw [hf] at h
      cases h
      exact List.mem_cons_of_mem _ (List.mem_of_find?_eq_some hf)
    | none =>
      rw [hf] at h
      exact List.mem_cons_of_mem _ (ih h)

theorem corrLoop_of_none {t : Table} {θ : ℚ} {n : Nat} {cs : List ColName}
    (h : firstBad t θ cs = none) : corrLoop t θ n cs = cs := by
  cases n with
  | zero => rfl
  | succ n => simp [corrLoop, h]

theorem firstBad_corrLoop (t : Table) (θ : ℚ) :
    ∀ n cs, List.length cs ≤ n → firstBad t θ (corrLoop t θ n cs) = none := by
  intro n
  induction n with
  | zero =>
    intro cs hcs
    have hnil : cs = [] := List.eq_nil_of_length_eq_zero (Nat.le_zero.mp hcs)
    subst hnil
    rfl
  | succ n ih =>
    intro cs hcs
    cases hf : firstBad t θ cs with
    | none => simp [corrLoop, hf]
    | some d =>
      have hd : d ∈ cs := firstBad_mem hf
      have hpos : 1 ≤ cs.length := List.length_pos.mpr (by rintro rfl; simp at hd)
      have hlen : (cs.erase d).length ≤ n := by
        rw [List.length_erase_of_mem hd]
        omega
      simpa [corrLoop, hf] using ih (cs.erase d) hlen

theorem firstBad_split {t : Table} {θ : ℚ} : ∀ {cs : List ColName} {d : ColName},
    firstBad t θ cs = some d →
    ∃ l1 c l2, cs = l1 ++ c :: l2 ∧ d ∈ l2 ∧
      exceedsCorr θ (colNums t c) (colNums t d) = true := by
  intro cs
  induction cs with
  | nil => intro d h; simp [firstBad] at h
  | cons c rest ih =>
    intro d h
    rw [firstBad] at h
    cases hf : rest.find? (fun d => exceedsCorr θ (colNums t c) (colNums t d)) with
    | some d' =>
      rw [hf] at h
      cases h
      exact ⟨[], c, rest, rfl, List.mem_of_find?_eq_some hf, by simpa using List.find?_some hf⟩
    | none =>
      rw [hf] at h
      obtain ⟨l1, c', l2, hsplit, hmem, hex⟩ := ih h
      exact ⟨c :: l1, c', l2, by rw [hsplit]; rfl, hmem, hex⟩

/-- C6: the correlation-threshold selection operation is a fixed point of
itself: for every table and threshold, re-running it on its own output
removes zero additional feature columns. -/
theorem correlation_threshold_fixed_point (t : Table) (θ : ℚ) (F : List ColName) :
    correlation_threshold t θ (correlation_threshold t θ F) =
      correlation_threshold t θ F := by
  have h := firstBad_corrLoop t θ F.length F le_rfl
  unfold correlation_threshold at h ⊢
  exact corrLoop_of_none h

/-- C7: whenever a pair of remaining features exceeds the threshold, the
correlation-threshold operation removes the pair's higher-index member in
the current working-set order: the removed column `d` always has some
lower-index partner `c` with which it exceeds the threshold, and on a
two-feature working set whose pair exceeds the threshold, exactly the
higher-index feature is removed and exactly the lower-index one
survives. -/
theorem correlation_threshold_removes_higher (t : Table) (θ : ℚ) :
    (∀ cs d, firstBad t θ cs = some d →
      ∃ l1 c l2, cs = l1 ++ c :: l2 ∧ d ∈ l2 ∧
        exceedsCorr θ (colNums t c) (colNums t d) = true) ∧
    (∀ a b, exceedsCorr θ (colNums t a) (colNums t b) = true →
      correlation_threshold t θ [a, b] = [a]) := by
  constructor
  · intro cs d h
    exact firstBad_split h
  · intro a b hab
    have h1 : firstBad t θ [a, b] = some b := by
      rw [firstBad]
      simp [List.find?_cons, hab]
    have herase : ([a, b].erase b) = [a] := by
      by_cases hab2 : a = b
      · subst hab2; simp [List.erase_cons]
      · simp [List.erase_cons, hab2]
    have h2 : firstBad t θ [a] = none := by
      rw [firstBad]
      simp [List.find?]
      rfl
    show corrLoop t θ 2 [a, b] = [a]
    rw [corrLoop, h1]
    show corrLoop t θ 1 ([a, b].erase b) = [a]
    rw [herase, corrLoop, h2]

/-- Witness table for C7: two feature columns with absolute correlation 1. -/
def tw7 : Table :=
  { cols := ["f1", "f2"],
    rows := [[("f1", .num 0), ("f2", .num 0)],
             [("f1", .num 1), ("f2", .num 1)]] }

/-- Witness for C7: on a concrete table whose two features exceed the
0.95 correlation threshold, exactly the higher-index feature is removed. -/
theorem correlation_threshold_removes_higher_witness :
    correlation_threshold tw7 (19/20) ["f1", "f2"] = ["f1"] := by
  apply (correlation_threshold_removes_higher tw7 (19/20)).2
  have h1 : colNums tw7 "f1" = [0, 1] := rfl
  have h2 : colNums tw7 "f2" = [0, 1] := rfl
  rw [h1, h2]
  unfold exceedsCorr
  rw [decide_eq_true_eq]
  norm_num [popVar, popCov, popMean, List.zip]

/-! ## MergeEngine theorems (claims C1 and C9) -/

/-- C1: the merge stage never changes the row count relative to the leaf
compartment table: a successful merge (hence one whose LinkSpec passed
tree validation) returns exactly as many rows as the leaf table, no join
step fans rows out (each many-to-one step can only keep or drop rows),
and whenever the written row count diverges from the leaf table's row
count the stage raises IntegrityError. -/
theorem merge_rowcount (g : LinkGraph) (leaf : Table) (steps : List MergeStep) :
    (∀ t, merge_pipeline g leaf steps = .ok t → t.rows.length = leaf.rows.length) ∧
    (∀ rows st out, joinStep rows st = .ok out → out.length ≤ rows.length) ∧
    (∀ rs, validateLinkSpec g = .ok () → mergeRows leaf.rows steps = .ok rs →
      rs.length ≠ leaf.rows.length →
      merge_pipeline g leaf steps = .error .integrity) := by
  refine ⟨?_, ?_, ?_⟩
  · intro t h
    unfold merge_pipeline at h
    cases hv : validateLinkSpec g with
    | error e => rw [hv] at h; simp at h
    | ok u =>
      rw [hv] at h
      unfold merge_single_cells at h
      cases hm : mergeRows leaf.rows steps with
      | error e => rw [hm] at h; simp at h
      | ok rs =>
        rw [hm] at h
        by_cases hlen : rs.length = leaf.rows.length
        · simp only [hlen, if_true] at h
          simp at h
          subst h
          exact hlen
        · simp [hlen] at h
  · intro rows st out h
    unfold joinStep at h
    by_cases hc : rows.any
        (fun r => decide (2 ≤ (st.table.rows.filter (rowKeyMatch st.keys r)).length))
    · rw [if_pos hc] at h; simp at h
    · rw [if_neg hc] at h
      cases h
      exact List.length_filterMap_le _ _
  · intro rs hv hm hne
    unfold merge_pipeline merge_single_cells
    simp only [hv, hm]
    rw [if_neg hne]

/-- C9: link-graph validation fails with ConfigurationError whenever a
compartment is unreachable from the image root, the link graph has a
cycle, or a declared foreign-key column is absent from its source table;
the validation runs eagerly, so the whole merge stage returns the same
ConfigurationError whatever the data tables hold, and no merged output is
produced. -/
theorem validate_fails_eagerly (g : LinkGraph) (leaf : Table) (steps : List MergeStep)
    (h : allReachable g = false ∨ hasCycle g = true ∨ fkColumnsPresent g = false) :
    validateLinkSpec g = .error .configuration ∧
    merge_pipeline g leaf steps = .error .configuration := by
  have hv : validateLinkSpec g = .error .configuration := by
    unfold validateLinkSpec
    rcases h with h | h | h <;> simp [h]
  refine ⟨hv, ?_⟩
  unfold merge_pipeline
  simp only [hv]

/-! ### Concrete witnesses for the merge stage -/

/-- Witness link graph: one leaf compartment linked to the image root. -/
def gw : LinkGraph :=
  { comps := ["Per_Image", "Per_Cells"],
    root := "Per_Image",
    edges := [("Per_Cells", "Per_Image", "ImageNumber")],
    tableCols := [("Per_Image", ["ImageNumber", "Image_Metadata_Well"]),
                  ("Per_Cells", ["ImageNumber", "Cells_Area"])] }

/-- Witness leaf compartment table with two rows. -/
def leafW : Table :=
  { cols := ["ImageNumber", "Cells_Area"],
    rows := [[("ImageNumber", .num 1), ("Cells_Area", .num 10)],
             [("ImageNumber", .num 1), ("Cells_Area", .num 11)]] }

/-- Witness image/root table with one row. -/
def ancW : Table :=
  { cols := ["ImageNumber", "Image_Metadata_Well"],
    rows := [[("ImageNumber", .num 1), ("Image_Metadata_Well", .str "A1")]] }

/-- Witness merge plan: join the leaf with the image table on ImageNumber. -/
def stepsW : List MergeStep :=
  [{ table := ancW, keys := [("ImageNumber", "ImageNumber")] }]

/-- The merged profile the witness merge produces. -/
def mergedW : Table :=
  { cols := ["ImageNumber", "Cells_Area", "ImageNumber", "Image_Metadata_Well"],
    rows := [[("ImageNumber", .num 1), ("Cells_Area", .num 10),
              ("ImageNumber", .num 1), ("Image_Metadata_Well", .str "A1")],
             [("ImageNumber", .num 1), ("Cells_Area", .num 11),
              ("ImageNumber", .num 1), ("Image_Metadata_Well", .str "A1")]] }

/-- Witness for C1: the concrete merge succeeds and returns exactly the
leaf table's row count. -/
theorem merge_rowcount_witness :
    merge_pipeline gw leafW stepsW = .ok mergedW ∧
    mergedW.rows.length = leafW.rows.length :=
  ⟨rfl, (merge_rowcount gw leafW stepsW).1 mergedW rfl⟩

/-- Witness link graph for C9: a two-compartment cycle hanging off the
root. -/
def gw9 : LinkGraph :=
  { comps := ["Per_Image", "A", "B"],
    root := "Per_Image",
    edges := [("A", "B", "colA"), ("B", "A", "colB")],
    tableCols := [("A", ["colA"]), ("B", ["colB"])] }

/-- Witness for C9: the cyclic link graph is rejected eagerly with
ConfigurationError and the merge stage produces no output. -/
theorem validate_fails_eagerly_witness :
    validateLinkSpec gw9 = .error .configuration ∧
    merge_pipeline gw9 leafW [] = .error .configuration :=
  validate_fails_eagerly gw9 leafW [] (Or.inr (Or.inl (by decide)))

/-! ## Link-configuration theorem (claim C10) -/

/-- C10: the compartment linking specification `linking_cols` written in
the walkthrough source is bidirectional: whenever compartment `a`
declares a linking column for compartment `b`, compartment `b` also
declares one for `a`, so the link relation over compartments is
symmetric rather than a one-directional child-to-parent tree. -/
theorem linking_cols_bidirectional (a b : String)
    (h : (linkOf a b).isSome = true) : (linkOf b a).isSome = true := by
  unfold linkOf at h
  cases hf : linking_cols.find? (fun e => e.1 == a) with
  | none => rw [hf] at h; simp at h
  | some e =>
    rw [hf] at h
    have h2 : ((e.2.find? (fun q => q.1 == b)).map (fun q => q.2)).isSome = true := h
    have hmem : e ∈ linking_cols := List.mem_of_find?_eq_some hf
    have hkey : e.1 = a := by simpa using List.find?_some hf
    cases hin : e.2.find? (fun q => q.1 == b) with
    | none => rw [hin] at h2; simp at h2
    | some q =>
      have hqmem : q ∈ e.2 := List.mem_of_find?_eq_some hin
      have hqkey : q.1 = b := by simpa using List.find?_some hin
      simp only [linking_cols, List.mem_cons, List.not_mem_nil, or_false] at hmem
      rcases hmem with he | he | he <;>
        (subst he
         simp only [] at hkey
         subst hkey
         simp only [List.mem_cons, List.not_mem_nil, or_false] at hqmem)
      · rcases hqmem with hq | hq <;>
          (subst hq
           simp only [] at hqkey
           subst hqkey
           decide)
      · subst hqmem
        simp only [] at hqkey
        subst hqkey
        decide
      · subst hqmem
        simp only [] at hqkey
        subst hqkey
        decide

/-- Witness for C10: the cytoplasm-to-cells link has its reverse entry. -/
theorem linking_cols_bidirectional_witness :
    (linkOf "Per_Cells" "Per_Cytoplasm").isSome = true :=
  linking_cols_bidirectional "Per_Cytoplasm" "Per_Cells" (by decide)

/-! ## AnnotationJoiner theorems (claims C2, C3 and C8) -/

theorem find?_append_none {α : Type} {l1 l2 : List α} {q : α → Bool}
    (h : l1.find? q = none) : (l1 ++ l2).find? q = l2.find? q := by
  induction l1 with
  | nil => rfl
  | cons a l ih =>
    rw [List.find?_eq_none] at h
    have ha : q a = false := by
      have := h a (List.mem_cons_self a l)
      simpa using this
    have hl : l.find? q = none := by
      rw [List.find?_eq_none]
      intro x hx
      exact h x (List.mem_cons_of_mem a hx)
    simp [List.cons_append, List.find?_cons, ha, ih hl]

theorem cellOf_append_right (r s : Rowt) (c : ColName)
    (h : ∀ e ∈ r, e.1 ≠ c) : cellOf (r ++ s) c = cellOf s c := by
  unfold cellOf
  have hnone : r.find? (fun e => e.1 == c) = none := by
    rw [List.find?_eq_none]
    intro e he
    simp [h e he]
  rw [find?_append_none hnone]

theorem cellOf_of_all_null (r : Rowt) (c : ColName)
    (h : ∀ e ∈ r, e.2 = .null) : cellOf r c = .null := by
  unfold cellOf
  cases hf : r.find? (fun e => e.1 == c) with
  | none => rfl
  | some e => exact h e (List.mem_of_find?_eq_some hf)

theorem metaRename_not_mem (profCols : List ColName) (c : ColName)
    (hns : ("Metadata_" ++ c) ∉ profCols) : metaRename profCols c ∉ profCols := by
  unfold metaRename
  by_cases hc : c ∈ profCols
  · rw [if_pos hc]; exact hns
  · rw [if_neg hc]; exact hc

theorem getD_map_row (l : List Rowt) (f : Rowt → Rowt) (i : Nat)
    (h : i < l.length) : (l.map f).getD i [] = f (l.getD i []) := by
  rw [List.getD_eq_getElem?_getD, List.getD_eq_getElem?_getD, List.getElem?_map]
  cases hg : l[i]? with
  | none =>
    rw [List.getElem?_eq_none_iff] at hg
    omega
  | some x => simp

/-- C2: on every successful run, the annotation stage is a left outer
join that keeps the profile's row count and row order unchanged: the
output has exactly one row per profile row, in order, each extending the
corresponding profile row in place, and every profile row with no
matching metadata row carries NULL in every metadata column — no row is
dropped. -/
theorem annotate_left_join (prof meta : Table) (keys : List (ColName × ColName))
    (t : Table)
    (hrows : ∀ r ∈ prof.rows, ∀ e ∈ r, e.1 ∈ prof.cols)
    (hns : ∀ c ∈ meta.cols, ("Metadata_" ++ c) ∉ prof.cols)
    (hok : annotate prof meta keys = .ok t) :
    t.rows.length = prof.rows.length ∧
    (∀ i, i < prof.rows.length →
      ∃ ext, t.rows.getD i [] = prof.rows.getD i [] ++ ext) ∧
    (∀ i, i < prof.rows.length →
      matchingRows meta keys (prof.rows.getD i []) = [] →
      ∀ c ∈ meta.cols,
        cellOf (t.rows.getD i []) (metaRename prof.cols c) = .null) := by
  unfold annotate at hok
  by_cases hg : prof.rows.any
      (fun r => decide (2 ≤ (matchingRows meta keys r).length))
  · rw [if_pos hg] at hok
    simp at hok
  · rw [if_neg hg] at hok
    have ht : t.rows = prof.rows.map (fun r =>
        match matchingRows meta keys r with
        | [] => r ++ nullMetaEntries prof meta
        | m :: _ => r ++ metaEntries prof meta m) := by
      cases hok
      rfl
    refine ⟨by rw [ht]; exact List.length_map _ _, ?_, ?_⟩
    · intro i hi
      rw [ht, getD_map_row _ _ i hi]
      cases hm : matchingRows meta keys (prof.rows.getD i []) with
      | nil => exact ⟨nullMetaEntries prof meta, rfl⟩
      | cons m rest => exact ⟨metaEntries prof meta m, rfl⟩
    · intro i hi hm c hc
      rw [ht, getD_map_row _ _ i hi, hm]
      have hrmem : prof.rows.getD i [] ∈ prof.rows := by
        rw [List.getD_eq_getElem?_getD]
        cases hg2 : prof.rows[i]? with
        | none =>
          rw [List.getElem?_eq_none_iff] at hg2
          omega
        | some x =>
          have hx : x ∈ prof.rows := List.getElem?_mem hg2
          simpa using hx
      rw [cellOf_append_right]
      · apply cellOf_of_all_null
        intro e he
        unfold nullMetaEntries at he
        obtain ⟨c', hc', he'⟩ := List.mem_map.mp he
        rw [← he']
      · intro e he hce
        have hin : e.1 ∈ prof.cols := hrows _ hrmem e he
        rw [hce] at hin
        exact metaRename_not_mem prof.cols c (hns c hc) hin

/-- C3: the annotation stage raises AmbiguousJoinError exactly when some
profile row is matched by two or more metadata rows under the conjunction
of the declared join-key pairs; in that case no annotated output is
produced, and conversely every successful run had at most one metadata
match per profile row. -/
theorem annotate_ambiguous_iff (prof meta : Table) (keys : List (ColName × ColName)) :
    (annotate prof meta keys = .error .ambiguousJoin ↔
      ∃ r ∈ prof.rows, 2 ≤ (matchingRows meta keys r).length) ∧
    (∀ t, annotate prof meta keys = .ok t →
      ∀ r ∈ prof.rows, (matchingRows meta keys r).length ≤ 1) := by
  unfold annotate
  by_cases hg : prof.rows.any
      (fun r => decide (2 ≤ (matchingRows meta keys r).length))
  · rw [List.any_eq_true] at hg
    obtain ⟨r, hr, h2⟩ := hg
    have hg' : prof.rows.any
        (fun r => decide (2 ≤ (matchingRows meta keys r).length)) = true :=
      List.any_eq_true.mpr ⟨r, hr, h2⟩
    rw [if_pos hg']
    refine ⟨⟨fun _ => ⟨r, hr, by simpa using h2⟩, fun _ => rfl⟩, ?_⟩
    intro t ht
    simp at ht
  · have hg' : ∀ r ∈ prof.rows, ¬ 2 ≤ (matchingRows meta keys r).length := by
      intro r hr
      have := List.any_eq_false.mp (Bool.eq_false_iff.mpr hg) r hr
      simpa using this
    rw [if_neg hg]
    constructor
    · constructor
      · intro h
        simp at h
      · rintro ⟨r, hr, h2⟩
        exact absurd h2 (hg' r hr)
    · intro t ht r hr
      have := hg' r hr
      omega

/-- C8: the annotation stage's join keys are ordered pairs whose first
component reads the profile row and whose second reads the metadata row,
and a metadata row matches a profile row exactly when every declared
pair is simultaneously equal. -/
theorem annotate_join_key_pairs (meta : Table) (keys : List (ColName × ColName))
    (r m : Rowt) :
    m ∈ matchingRows meta keys r ↔
      m ∈ meta.rows ∧ ∀ k ∈ keys, cellOf r k.1 = cellOf m k.2 := by
  unfold matchingRows joinMatch
  rw [List.mem_filter]
  simp [List.all_eq_true]

/-! ### Concrete witnesses for the annotation stage -/

/-- Witness profile for C2: two rows, the second without metadata match. -/
def prof2 : Table :=
  { cols := ["w", "x"],
    rows := [[("w", .str "A1"), ("x", .num 1)],
             [("w", .str "B2"), ("x", .num 2)]] }

/-- Witness metadata table for C2: one row matching only the first
profile row. -/
def meta2 : Table :=
  { cols := ["well", "gene"],
    rows := [[("well", .str "A1"), ("gene", .str "g")]] }

/-- Witness join keys for C2. -/
def keys2 : List (ColName × ColName) := [("w", "well")]

/-- The annotated profile the witness annotation produces. -/
def annotated2 : Table :=
  { cols := ["w", "x", "well", "gene"],
    rows := [[("w", .str "A1"), ("x", .num 1), ("well", .str "A1"), ("gene", .str "g")],
             [("w", .str "B2"), ("x", .num 2), ("well", Value.null), ("gene", Value.null)]] }

/-- Witness for C2: the concrete annotation succeeds, keeps both profile
rows, and leaves the unmatched second row's metadata column NULL. -/
theorem annotate_left_join_witness :
    annotate prof2 meta2 keys2 = .ok annotated2 ∧
    annotated2.rows.length = prof2.rows.length ∧
    cellOf (annotated2.rows.getD 1 []) "gene" = .null := by
  have h := annotate_left_join prof2 meta2 keys2 annotated2
    (by decide) (by decide) rfl
  refine ⟨rfl, h.1, ?_⟩
  have h3 := h.2.2 1 (by decide) (by decide) "gene" (by decide)
  exact h3

/-- Witness profile for C3. -/
def prof3 : Table :=
  { cols := ["w"], rows := [[("w", .str "A1")]] }

/-- Witness metadata table for C3: two rows matching the same profile
row. -/
def meta3 : Table :=
  { cols := ["well", "gene"],
    rows := [[("well", .str "A1"), ("gene", .str "g1")],
             [("well", .str "A1"), ("gene", .str "g2")]] }

/-- Witness for C3: duplicate matching metadata rows raise
AmbiguousJoinError. -/
theorem annotate_ambiguous_witness :
    annotate prof3 meta3 [("w", "well")] = .error .ambiguousJoin :=
  (annotate_ambiguous_iff prof3 meta3 [("w", "well")]).1.mpr
    ⟨[("w", .str "A1")], by decide, by decide⟩

/-- Witness for C8: the metadata row agreeing with the first profile row
on every declared pair is a match. -/
theorem annotate_join_key_pairs_witness :
    [("well", Value.str "A1"), ("gene", Value.str "g")] ∈
      matchingRows meta2 keys2 [("w", Value.str "A1"), ("x", Value.num 1)] :=
  (annotate_join_key_pairs meta2 keys2 _ _).mpr ⟨by decide, by decide⟩

/-! ## Normalizer theorems (claim C4) -/

theorem popVar_nil : popVar [] = 0 := by
  simp [popVar, popMean]

theorem droppedCols_fst {t : Table} {F : List ColName} {c : ColName}
    {reason : DropReason} (h : (c, reason) ∈ droppedCols t F) :
    c ∈ F ∧ (colNums t c = [] ∨ popVar (colNums t c) = 0) := by
  unfold droppedCols at h
  rw [List.mem_filterMap] at h
  obtain ⟨a, ha, hfa⟩ := h
  split_ifs at hfa with h1 h2
  · cases hfa
    exact ⟨ha, Or.inl h1⟩
  · cases hfa
    exact ⟨ha, Or.inr h2⟩

theorem mem_droppedNames {t : Table} {F : List ColName} {c : ColName}
    (h : c ∈ droppedNames t F) :
    c ∈ F ∧ (colNums t c = [] ∨ popVar (colNums t c) = 0) := by
  unfold droppedNames at h
  rw [List.mem_map] at h
  obtain ⟨⟨c', reason⟩, hmem, rfl⟩ := h
  exact droppedCols_fst hmem

theorem degenerate_mem_droppedCols {t : Table} {F : List ColName} {c : ColName}
    (hF : c ∈ F) (hne : colNums t c ≠ []) (hvar : popVar (colNums t c) = 0) :
    (c, DropReason.degenerateColumn) ∈ droppedCols t F := by
  unfold droppedCols
  rw [List.mem_filterMap]
  exact ⟨c, hF, by rw [if_neg hne, if_pos hvar]⟩

theorem cellOf_map_transform (r : Rowt) (F : List ColName)
    (g : ColName → Value → Value) (c : ColName) (hc : c ∈ F) (x : ℚ)
    (hcell : cellOf r c = .num x) :
    cellOf (r.map (fun e => if e.1 ∈ F then (e.1, g e.1 e.2) else e)) c =
      g c (.num x) := by
  unfold cellOf at hcell ⊢
  rw [find?_map_pred]
  · cases hf : r.find? (fun e => e.1 == c) with
    | none =>
      rw [hf] at hcell
      exact absurd (hcell : Value.null = Value.num x) (by simp)
    | some e =>
      rw [hf] at hcell
      have hcell2 : e.2 = Value.num x := hcell
      have hek : e.1 = c := by simpa using List.find?_some hf
      have hfe : (if e.1 ∈ F then (e.1, g e.1 e.2) else e) = (c, g c (Value.num x)) := by
        rw [hek, if_pos hc, hcell2]
      show (if e.1 ∈ F then (e.1, g e.1 e.2) else e).2 = g c (Value.num x)
      rw [hfe]
  · intro e
    by_cases he : e.1 ∈ F <;> simp [he]

/-- C4: normalization with method standardize transforms every
non-degenerate feature cell by subtracting the population mean and
dividing by the population standard deviation (the unique nonnegative
`σ` with `σ^2` equal to the population variance, which is then nonzero);
every feature column whose population standard deviation is zero is
dropped with DegenerateColumnError recorded and never appears in the
output schema; and the run continues rather than aborting: every row and
every non-dropped column is still present in the output. -/
theorem normalize_standardize (t : Table) (F : List ColName) (σ : List ℚ → ℚ)
    (hσ : ∀ c ∈ F, 0 ≤ σ (colNums t c) ∧
      σ (colNums t c) ^ 2 = popVar (colNums t c)) :
    (∀ c ∈ F, popVar (colNums t c) ≠ 0 →
      σ (colNums t c) ≠ 0 ∧
      ∀ i x, cellOf (t.rows.getD i []) c = .num x →
        cellOf ((normalize σ t F).1.rows.getD i []) c =
          .num ((x - popMean (colNums t c)) / σ (colNums t c))) ∧
    (∀ c ∈ F, popVar (colNums t c) = 0 → colNums t c ≠ [] →
      (c, DropReason.degenerateColumn) ∈ (normalize σ t F).2 ∧
      c ∉ (normalize σ t F).1.cols) ∧
    (normalize σ t F).1.rows.length = t.rows.length ∧
    (∀ c ∈ t.cols, c ∉ droppedNames t F → c ∈ (normalize σ t F).1.cols) := by
  refine ⟨?_, ?_, ?_, ?_⟩
  · intro c hcF hvar
    have hσc := hσ c hcF
    have hσne : σ (colNums t c) ≠ 0 := by
      intro h0
      rw [h0] at hσc
      have h2 := hσc.2
      rw [show (0 : ℚ) ^ 2 = 0 by norm_num] at h2
      exact hvar h2.symm
    refine ⟨hσne, ?_⟩
    intro i x hcell
    have hnd : c ∉ droppedNames t F := by
      intro hmem
      rcases (mem_droppedNames hmem).2 with h | h
      · rw [h] at hvar
        exact hvar popVar_nil
      · exact hvar h
    have hi : i < t.rows.length := by
      by_contra hge
      push_neg at hge
      rw [List.getD_eq_default] at hcell
      · simp [cellOf] at hcell
      · exact hge
    have hrow : (normalize σ t F).1.rows.getD i [] =
        ((t.rows.getD i []).filter (fun e => decide (e.1 ∉ droppedNames t F))).map
          (fun e => if e.1 ∈ F then (e.1, stdTransform σ t e.1 e.2) else e) :=
      getD_map_row _ _ i hi
    have hfil : cellOf ((t.rows.getD i []).filter
        (fun e => decide (e.1 ∉ droppedNames t F))) c = cellOf (t.rows.getD i []) c :=
      cellOf_filter _ _ _ (fun e he => by rw [he]; simpa using hnd)
    rw [hrow, cellOf_map_transform _ F _ c hcF x (by rw [hfil]; exact hcell)]
    rfl
  · intro c hcF hvar hne
    have hdrop := degenerate_mem_droppedCols hcF hne hvar
    refine ⟨hdrop, ?_⟩
    intro hcols
    have hmem : c ∈ droppedNames t F := by
      unfold droppedNames
      exact List.mem_map.mpr ⟨(c, DropReason.degenerateColumn), hdrop, rfl⟩
    have := (List.mem_filter.mp hcols).2
    simp at this
    exact this hmem
  · exact List.length_map _ _
  · intro c hct hnd
    exact List.mem_filter.mpr ⟨hct, by simpa using hnd⟩

/-! ### Concrete witness for the Normalizer -/

/-- Witness annotated profile for C4: one metadata column, one feature
constant at 5.0 (degenerate) and one feature with variance 1. -/
def tw4 : Table :=
  { cols := ["m", "f1", "f2"],
    rows := [[("m", .str "a"), ("f1", .num 5), ("f2", .num 0)],
             [("m", .str "b"), ("f1", .num 5), ("f2", .num 2)]] }

/-- Witness feature set for C4. -/
def Fw4 : List ColName := ["f1", "f2"]

/-- Witness scale statistic: the population standard deviation of every
column population occurring in `tw4` (their variances are 0 and 1). -/
def sigW : List ℚ → ℚ := fun l => if popVar l = 1 then 1 else 0

theorem popVar_five_five : popVar [(5 : ℚ), 5] = 0 := by
  norm_num [popVar, popMean]

theorem popVar_zero_two : popVar [(0 : ℚ), 2] = 1 := by
  norm_num [popVar, popMean]

theorem sigW_spec : ∀ c ∈ Fw4, 0 ≤ sigW (colNums tw4 c) ∧
    sigW (colNums tw4 c) ^ 2 = popVar (colNums tw4 c) := by
  intro c hc
  have hc' : c = "f1" ∨ c = "f2" := by simpa [Fw4] using hc
  rcases hc' with rfl | rfl
  · have h1 : colNums tw4 "f1" = [5, 5] := rfl
    rw [h1]
    have hs : sigW [(5 : ℚ), 5] = 0 := by
      unfold sigW
      rw [popVar_five_five]
      norm_num
    rw [hs, popVar_five_five]
    norm_num
  · have h2 : colNums tw4 "f2" = [0, 2] := rfl
    rw [h2]
    have hs : sigW [(0 : ℚ), 2] = 1 := by
      unfold sigW
      rw [popVar_zero_two]
      norm_num
    rw [hs, popVar_zero_two]
    norm_num

/-- Witness for C4: on the concrete profile, the feature constant at 5.0
is dropped with DegenerateColumnError recorded and leaves the schema,
while the non-degenerate feature is standardized in place
((2 - 1) / 1 = 1) — the run continued. -/
theorem normalize_standardize_witness :
    ("f1", DropReason.degenerateColumn) ∈ (normalize sigW tw4 Fw4).2 ∧
    "f1" ∉ (normalize sigW tw4 Fw4).1.cols ∧
    cellOf ((normalize sigW tw4 Fw4).1.rows.getD 1 []) "f2" = .num 1 := by
  have h := normalize_standardize tw4 Fw4 sigW sigW_spec
  have hdeg := h.2.1 "f1" (by simp [Fw4])
    (by rw [show colNums tw4 "f1" = [5, 5] from rfl]; exact popVar_five_five)
    (by rw [show colNums tw4 "f1" = [5, 5] from rfl]; simp)
  have hfml := h.1 "f2" (by simp [Fw4])
    (by rw [show colNums tw4 "f2" = [0, 2] from rfl, popVar_zero_two]; norm_num)
  have hcell := hfml.2 1 2 rfl
  refine ⟨hdeg.1, hdeg.2, ?_⟩
  rw [hcell]
  have h2 : colNums tw4 "f2" = [0, 2] := rfl
  rw [h2]
  have hm : popMean [(0 : ℚ), 2] = 1 := by norm_num [popMean]
  have hs : sigW [(0 : ℚ), 2] = 1 := by
    unfold sigW
    rw [popVar_zero_two]
    norm_num
  rw [hm, hs]
  norm_num

/-! ## FeatureSelector frame lemmas and theorem (claim C5) -/

theorem corrLoop_subset (t : Table) (θ : ℚ) :
    ∀ n cs, corrLoop t θ n cs ⊆ cs := by
  intro n
  induction n with
  | zero => intro cs; exact fun x h => h
  | succ n ih =>
    intro cs
    cases hf : firstBad t θ cs with
    | none => simp [corrLoop, hf]
    | some d =>
      rw [corrLoop, hf]
      exact (ih (cs.erase d)).trans (List.erase_subset _ _)

theorem survivingFeatures_subset (t : Table) (F : List ColName) (τ θ : ℚ)
    (bl : List ColName) : survivingFeatures t F τ θ bl ⊆ F := by
  unfold survivingFeatures correlation_threshold
  intro c hc
  have hc1 := List.mem_of_mem_filter hc
  have hc2 := corrLoop_subset t θ _ _ hc1
  exact List.mem_of_mem_filter hc2

/-- C5: metadata columns are never touched: for every column of the
annotated profile that is not a feature column, the column survives both
the normalization stage and the feature-selection stage, both stages keep
the row count, and the column's value in every row is identical across
the annotated, normalized and selected profiles. -/
theorem metadata_columns_untouched (t : Table) (F : List ColName) (σ : List ℚ → ℚ)
    (τ θ : ℚ) (bl : List ColName) (c : ColName)
    (hct : c ∈ t.cols) (hcF : c ∉ F) :
    c ∈ (normalize σ t F).1.cols ∧
    c ∈ (feature_select (normalize σ t F).1 F τ θ bl).cols ∧
    (normalize σ t F).1.rows.length = t.rows.length ∧
    (feature_select (normalize σ t F).1 F τ θ bl).rows.length = t.rows.length ∧
    ∀ i, cellOf ((normalize σ t F).1.rows.getD i []) c = cellOf (t.rows.getD i []) c ∧
      cellOf ((feature_select (normalize σ t F).1 F τ θ bl).rows.getD i []) c =
        cellOf (t.rows.getD i []) c := by
  have hnd : c ∉ droppedNames t F := fun h => hcF (mem_droppedNames h).1
  have hn1 : c ∈ (normalize σ t F).1.cols :=
    List.mem_filter.mpr ⟨hct, by simpa using hnd⟩
  have hs1 : c ∈ (feature_select (normalize σ t F).1 F τ θ bl).cols :=
    List.mem_filter.mpr ⟨hn1, by simp [hcF]⟩
  have hlen1 : (normalize σ t F).1.rows.length = t.rows.length :=
    List.length_map _ _
  have hlen2 : (feature_select (normalize σ t F).1 F τ θ bl).rows.length
      = t.rows.length := by
    rw [show (feature_select (normalize σ t F).1 F τ θ bl).rows.length
        = (normalize σ t F).1.rows.length from List.length_map _ _]
    exact hlen1
  have hcellN : ∀ i, cellOf ((normalize σ t F).1.rows.getD i []) c
      = cellOf (t.rows.getD i []) c := by
    intro i
    by_cases hi : i < t.rows.length
    · have hrow : (normalize σ t F).1.rows.getD i [] =
          ((t.rows.getD i []).filter (fun e => decide (e.1 ∉ droppedNames t F))).map
            (fun e => if e.1 ∈ F then (e.1, stdTransform σ t e.1 e.2) else e) :=
        getD_map_row _ _ i hi
      rw [hrow, cellOf_map, cellOf_filter]
      · intro e he
        rw [he]
        simpa using hnd
      · intro e
        by_cases he : e.1 ∈ F <;> simp [he]
      · intro e he
        rw [if_neg]
        rw [he]
        exact hcF
    · push_neg at hi
      rw [List.getD_eq_default _ _ hi, List.getD_eq_default]
      rw [hlen1]
      exact hi
  have hcellS : ∀ i, cellOf ((feature_select (normalize σ t F).1 F τ θ bl).rows.getD i []) c
      = cellOf ((normalize σ t F).1.rows.getD i []) c := by
    intro i
    by_cases hi : i < (normalize σ t F).1.rows.length
    · have hrow : (feature_select (normalize σ t F).1 F τ θ bl).rows.getD i [] =
          ((normalize σ t F).1.rows.getD i []).filter
            (fun e => decide (e.1 ∉ F ∨
              e.1 ∈ survivingFeatures (normalize σ t F).1 F τ θ bl)) :=
        getD_map_row _ _ i hi
      rw [hrow, cellOf_filter]
      intro e he
      rw [he]
      simp [hcF]
    · push_neg at hi
      rw [List.getD_eq_default _ _ hi, List.getD_eq_default]
      rw [show (feature_select (normalize σ t F).1 F τ θ bl).rows.length
          = (normalize σ t F).1.rows.length from List.length_map _ _]
      exact hi
  exact ⟨hn1, hs1, hlen1, hlen2, fun i => ⟨hcellN i, (hcellS i).trans (hcellN i)⟩⟩

/-- Witness for C5: on the concrete profile, the metadata column `m`
survives normalization and feature selection with its first-row value
unchanged. -/
theorem metadata_columns_untouched_witness :
    "m" ∈ (normalize sigW tw4 Fw4).1.cols ∧
    cellOf ((feature_select (normalize sigW tw4 Fw4).1 Fw4 0 (19/20) []).rows.getD 0 [])
      "m" = cellOf (tw4.rows.getD 0 []) "m" := by
  have h := metadata_columns_untouched tw4 Fw4 sigW 0 (19/20) [] "m"
    (by simp [tw4]) (by simp [Fw4])
  exact ⟨h.1, (h.2.2.2.2 0).2⟩

end Pycytominer
